import Mathlib

/-
Verification of the Istanbul BFT consensus core (celo-blockchain).

The definitions below are a shallow embedding of the consensus core found in
the repository (package `consensus/istanbul/core`).  Functions whose bodies are
present in the source (`startNewRound`, `waitForDesiredRound`, `commit`,
`getPreprepareWithRoundChangeCertificate`, `newRoundChangeTimerForView`,
`updateRoundState`) are translated directly from the code.  Functions that the
repository only exercises through its tests (`roundChangeSet.Add`,
`roundChangeSet.MaxRound`, `verifyPreparedCertificate`, `verifyPrepare`,
`handlePrepare`, proposer selection, certificate construction) are modelled
from the specification, as indicated by their doc comments.

Go big.Int values are modelled by Int, uint64 map keys by Nat, addresses and
hashes by Nat, maps by association lists or explicit recursion, and effectful
calls (broadcast, timers, Backend.Commit) by explicit action lists.
-/

set_option autoImplicit false

namespace Ist

/-- Addresses are 20-byte account identifiers; modelled as naturals. -/
abbrev Address := Nat

/-- Block hashes, modelled as naturals; proposal equality is by hash. -/
abbrev Hash := Nat

/-- Models `istanbul.Proposal`: an opaque block exposing number and hash. -/
structure Proposal where
  number : Int
  hash : Hash
deriving DecidableEq, Repr

/-- Models `istanbul.View`: a (sequence, round) pair of big.Int values. -/
structure View where
  sequence : Int
  round : Int
deriving DecidableEq, Repr

/-- Models `istanbul.Request`: a local proposal awaiting broadcast. -/
structure Request where
  proposal : Proposal
deriving DecidableEq, Repr

/-- Models the istanbul message codes. -/
inductive MsgCode where
  | msgPreprepare
  | msgPrepare
  | msgCommit
  | msgRoundChange
deriving DecidableEq, Repr

/-- Models `istanbul.Subject`: the content of PREPARE and COMMIT messages.
The wire format allows a missing sequence (`Sequence: nil` in the tests),
hence the Option. -/
structure Subject where
  round : Int
  sequence : Option Int
  digest : Hash
deriving DecidableEq, Repr

/-- Models the `State` type of the core state machine. -/
inductive IstState where
  | acceptRequest
  | preprepared
  | prepared
  | committed
  | waitingForNewRound
deriving DecidableEq, Repr

/-- Models the stable error values the handlers return. -/
inductive IstErr where
  | oldMessage
  | futureMessage
  | invalidMessage
  | inconsistentSubject
deriving DecidableEq, Repr

/-- Models the stable errors of `verifyPreparedCertificate`. -/
inductive PCErr where
  | numMsgs
  | duplicate
  | msgView
  | msgCode
  | digestMismatch
deriving DecidableEq, Repr

/-- Models the events posted into the single-threaded event loop. -/
inductive Event where
  | timeout (view : View)
deriving DecidableEq, Repr

/-- Models a PREPARE or COMMIT message stored inside a prepared certificate,
with its decoded subject fields. -/
structure CertMsg where
  code : MsgCode
  address : Address
  round : Int
  sequence : Int
  digest : Hash
deriving DecidableEq, Repr

/-- Models `istanbul.PreparedCertificate`. -/
structure PreparedCertificate where
  proposal : Proposal
  prepareOrCommitMessages : List CertMsg
deriving DecidableEq, Repr

/-- Models `istanbul.EmptyPreparedCertificate()`: the distinguished empty
certificate (a zero block and no messages). -/
def EmptyPreparedCertificate : PreparedCertificate :=
  { proposal := { number := 0, hash := 0 }, prepareOrCommitMessages := [] }

/-- Models a ROUND-CHANGE message as stored in the round change set: the
sender, whether its body decodes, and the decoded embedded prepared
certificate data (`HasPreparedCertificate`, the certificate view round --
`none` models a nil view -- and the certificate proposal). -/
structure RCMessage where
  address : Address
  decodeOk : Bool
  hasPC : Bool
  pcRound : Option Int
  pcProposal : Proposal
deriving DecidableEq, Repr

/-- Effects and outbound calls the core performs, reified as data. -/
inductive Action where
  | sendPreprepare (request : Request) (certificate : List RCMessage)
  | sendRoundChange (round : Int)
  | broadcastCommit (subject : Subject)
  | resetTimer (view : View)
  | backendCommit (proposal : Proposal) (bitmap : Nat) (seals : List Nat)
  | sendNextRoundChange
deriving DecidableEq, Repr

/-- Association-list lookup keyed by naturals (models Go map access). -/
def getAssoc {β : Type} : List (Nat × β) → Nat → Option β
  | [], _ => none
  | (k, b) :: rest, a => if k = a then some b else getAssoc rest a

/-- Association-list update or insert (models Go map assignment). -/
def setAssoc {β : Type} : List (Nat × β) → Nat → β → List (Nat × β)
  | [], a, b => [(a, b)]
  | (k, b') :: rest, a, b => if k = a then (a, b) :: rest else (k, b') :: setAssoc rest a b

/-- Maximum of a list of naturals, `none` on the empty list. -/
def listMax : List Nat → Option Nat
  | [] => none
  | x :: xs =>
    match listMax xs with
    | none => some x
    | some m => some (max x m)

/-- Minimum of a list of naturals, `none` on the empty list. -/
def listMin : List Nat → Option Nat
  | [] => none
  | x :: xs =>
    match listMin xs with
    | none => some x
    | some m => some (min x m)

/-- Models `roundChangeSet`: ROUND-CHANGE messages grouped by round
(`msgsForRound`) and the highest round seen per validator
(`latestRoundForVal`).  Both Go maps are association lists. -/
structure RoundChangeSet where
  msgsForRound : List (Nat × List RCMessage)
  latestRoundForVal : List (Address × Nat)
deriving DecidableEq, Repr

/-- Models `newRoundChangeSet`: the empty round change set. -/
def newRoundChangeSet : RoundChangeSet :=
  { msgsForRound := [], latestRoundForVal := [] }

/-- Insertion into a per-round message set: idempotent per sender
(models `messageSet.Add`, which stores at most one message per address). -/
def addToEntry (msg : RCMessage) (ms : List RCMessage) : List RCMessage :=
  if ms.any (fun m => m.address == msg.address) then ms else msg :: ms

/-- Insert a message into `msgsForRound` at the given round, creating the
entry when absent. -/
def addMsg : List (Nat × List RCMessage) → Nat → RCMessage → List (Nat × List RCMessage)
  | [], r, msg => [(r, [msg])]
  | (k, ms) :: rest, r, msg =>
    if k = r then (k, addToEntry msg ms) :: rest else (k, ms) :: addMsg rest r msg

/-- Remove all messages of a sender from the entry at the given round. -/
def eraseAddr : List (Nat × List RCMessage) → Nat → Address → List (Nat × List RCMessage)
  | [], _, _ => []
  | (k, ms) :: rest, r, a =>
    (k, if k = r then ms.filter (fun m => m.address != a) else ms) :: eraseAddr rest r a

/-- Modelled from the spec: `roundChangeSet.Add` (file roundchange.go, which is
not under src/; only its tests are).  Insert into
`msgsForRound[msg.Round]`; for each sender keep only the message at the
highest round and record `latestRoundForVal[addr] = max`; a message for a
round lower than the latest recorded round of its sender is rejected. -/
def RoundChangeSet.Add (rcs : RoundChangeSet) (round : Nat) (msg : RCMessage) : RoundChangeSet :=
  match getAssoc rcs.latestRoundForVal msg.address with
  | some prev =>
    if round < prev then
      rcs
    else if prev < round then
      { msgsForRound := addMsg (eraseAddr rcs.msgsForRound prev msg.address) round msg
        latestRoundForVal := setAssoc rcs.latestRoundForVal msg.address round }
    else
      { rcs with msgsForRound := addMsg rcs.msgsForRound round msg }
  | none =>
    { msgsForRound := addMsg rcs.msgsForRound round msg
      latestRoundForVal := setAssoc rcs.latestRoundForVal msg.address round }

/-- Messages stored for a round (a missing entry is the empty set). -/
def RoundChangeSet.msgsAt (rcs : RoundChangeSet) (round : Nat) : List RCMessage :=
  (getAssoc rcs.msgsForRound round).getD []

/-- Number of validators in the latest-round table whose latest ROUND-CHANGE
round is at least `r`. -/
def countGE (l : List (Address × Nat)) (r : Nat) : Nat :=
  (l.filter (fun p => decide (r ≤ p.2))).length

/-- Modelled from the spec: `roundChangeSet.MaxRound(threshold)` (file
roundchange.go, not under src/): the largest round R such that at least
`threshold` distinct senders have their latest ROUND-CHANGE round at least R,
`none` when no round qualifies. -/
def RoundChangeSet.MaxRound (rcs : RoundChangeSet) (threshold : Nat) : Option Nat :=
  listMax (((rcs.latestRoundForVal.map (fun p => p.2)).filter
    (fun r => decide (threshold ≤ countGE rcs.latestRoundForVal r))))

/-- All messages stored at rounds at least `minRound`, in table order. -/
def collectFrom (minRound : Nat) : List (Nat × List RCMessage) → List RCMessage
  | [] => []
  | (k, ms) :: rest =>
    if minRound ≤ k then ms ++ collectFrom minRound rest else collectFrom minRound rest

/-- Modelled from the spec: `roundChangeSet.getCertificate` (file
roundchange.go, not under src/).  A RoundChangeCertificate for a target round
is a set of at least `quorumSize` ROUND-CHANGE messages, one per distinct
sender, each with round at least the target round; construction fails when
fewer messages are available. -/
def RoundChangeSet.getCertificate (rcs : RoundChangeSet) (minRound : Nat)
    (quorumSize : Nat) : Except Unit (List RCMessage) :=
  let msgs := collectFrom minRound rcs.msgsForRound
  if quorumSize ≤ msgs.length then Except.ok (msgs.take quorumSize) else Except.error ()

/-- Modelled from the spec: the per-message loop of
`verifyPreparedCertificate` (file roundchange.go, not under src/; only
TestVerifyPreparedCertificate is).  Messages are scanned in order; the first
violated condition determines the error: a message that is neither PREPARE
nor COMMIT, a message with a sequence beyond the current one or a view
differing from the view shared by the certificate, a digest differing from
the hash of the certificate proposal, and a repeated sender. -/
def verifyPCMsgs (currentSeq : Int) (propHash : Hash) (fr : Int) (fs : Int)
    (seen : List Address) : List CertMsg → Option PCErr
  | [] => none
  | m :: rest =>
    if m.code = MsgCode.msgPrepare ∨ m.code = MsgCode.msgCommit then
      if m.sequence ≤ currentSeq then
        if m.round = fr ∧ m.sequence = fs then
          if m.digest = propHash then
            if m.address ∈ seen then some PCErr.duplicate
            else verifyPCMsgs currentSeq propHash fr fs (m.address :: seen) rest
          else some PCErr.digestMismatch
        else some PCErr.msgView
      else some PCErr.msgView
    else some PCErr.msgCode

/-- Modelled from the spec: `verifyPreparedCertificate` (file roundchange.go,
not under src/).  A certificate must contain exactly `quorum` messages; all
messages must share the view of the first message, carry no future sequence,
be PREPARE or COMMIT, come from distinct senders, and carry a digest equal to
the hash of the certificate proposal. -/
def verifyPreparedCertificate (currentSeq : Int) (quorum : Nat)
    (cert : PreparedCertificate) : Option PCErr :=
  match cert.prepareOrCommitMessages with
  | [] => some PCErr.numMsgs
  | first :: rest =>
    if (first :: rest).length = quorum then
      verifyPCMsgs currentSeq cert.proposal.hash first.round first.sequence []
        (first :: rest)
    else some PCErr.numMsgs

/-- Validity of a prepared certificate, stated directly from the words of the
specification (section 4.3): exactly `quorum` messages, all sharing the same
(sequence, round, digest), no sequence beyond the current one, every code
PREPARE or COMMIT, no duplicate senders, and the shared digest equal to the
hash of the certificate proposal. -/
def PCValid (currentSeq : Int) (quorum : Nat) (cert : PreparedCertificate) : Prop :=
  cert.prepareOrCommitMessages.length = quorum ∧
  (∀ m ∈ cert.prepareOrCommitMessages, ∀ m' ∈ cert.prepareOrCommitMessages,
    m.round = m'.round ∧ m.sequence = m'.sequence ∧ m.digest = m'.digest) ∧
  (∀ m ∈ cert.prepareOrCommitMessages, m.sequence ≤ currentSeq) ∧
  (∀ m ∈ cert.prepareOrCommitMessages,
    m.code = MsgCode.msgPrepare ∨ m.code = MsgCode.msgCommit) ∧
  (cert.prepareOrCommitMessages.map (fun m => m.address)).Nodup ∧
  (∀ m ∈ cert.prepareOrCommitMessages, m.digest = cert.proposal.hash)

instance (currentSeq : Int) (quorum : Nat) (cert : PreparedCertificate) :
    Decidable (PCValid currentSeq quorum cert) := by
  unfold PCValid; infer_instance

/-- Models the working state a PREPARE handler touches: the current view,
the hash of the accepted proposal, the set of senders whose PREPAREs were
accepted, and the state-machine state. -/
structure PrepareCore where
  sequence : Int
  round : Int
  proposalHash : Hash
  prepares : List Address
  state : IstState
deriving DecidableEq, Repr

/-- Models `roundState.Subject()`: the subject every PREPARE and COMMIT of
the current round must carry. -/
def currentSubject (c : PrepareCore) : Subject :=
  { round := c.round, sequence := some c.sequence, digest := c.proposalHash }

/-- Modelled from the spec: `checkMessage` view comparison (file backlog.go,
not under src/): a message with a view beyond the current one is a future
message, one behind it an old message, and a missing sequence is invalid. -/
def checkMessage (c : PrepareCore) (s : Subject) : Option IstErr :=
  match s.sequence with
  | none => some IstErr.invalidMessage
  | some seq =>
    if c.sequence < seq ∨ (seq = c.sequence ∧ c.round < s.round) then some IstErr.futureMessage
    else if seq < c.sequence ∨ (seq = c.sequence ∧ s.round < c.round) then some IstErr.oldMessage
    else none

/-- Modelled from the spec: `verifyPrepare` (file prepare.go, not under src/;
only TestVerifyPrepare is): the decoded subject must equal the current
subject, otherwise the stable error `errInconsistentSubject` is returned. -/
def verifyPrepare (c : PrepareCore) (p : Subject) : Option IstErr :=
  if p = currentSubject c then none else some IstErr.inconsistentSubject

/-- Idempotent insertion of a sender into the PREPARE message store. -/
def insertAddr (l : List Address) (a : Address) : List Address :=
  if a ∈ l then l else a :: l

/-- Modelled from the spec: `handlePrepare` (file prepare.go, not under src/;
only TestHandlePrepare is).  Check the view, verify the subject, insert into
`Prepares`; when the store reaches `minQuorumSize` while the state is
Preprepared, move to Prepared and broadcast a COMMIT carrying the current
subject (the guard keeps the COMMIT from being re-broadcast once Prepared,
as TestHandlePrepare requires exactly one send). -/
def handlePrepare (quorum : Nat) (c : PrepareCore) (sender : Address) (p : Subject) :
    PrepareCore × List Action :=
  match checkMessage c p with
  | some _ => (c, [])
  | none =>
    match verifyPrepare c p with
    | some _ => (c, [])
    | none =>
      let c' : PrepareCore := { c with prepares := insertAddr c.prepares sender }
      if quorum ≤ c'.prepares.length ∧ c'.state = IstState.preprepared then
        ({ c' with state := IstState.prepared },
          [Action.broadcastCommit (currentSubject c')])
      else (c', [])

/-- Process a list of PREPARE messages in order, collecting all actions. -/
def handlePrepares (quorum : Nat) (c : PrepareCore) :
    List (Address × Subject) → PrepareCore × List Action
  | [] => (c, [])
  | (sender, p) :: rest =>
    let out := handlePrepare quorum c sender p
    let out' := handlePrepares quorum out.1 rest
    (out'.1, out.2 ++ out'.2)

/-- Position of an address in a validator list. -/
def idxOf : List Address → Address → Option Nat
  | [], _ => none
  | x :: xs, a => if x = a then some 0 else (idxOf xs a).map (fun n => n + 1)

/-- Modelled from the spec: the validator set (package validator, not under
src/): an ordered list of validator addresses together with the index of the
currently selected proposer. -/
structure ValidatorSet where
  validators : List Address
  proposerIdx : Nat
deriving DecidableEq, Repr

/-- Modelled from the spec: `minQuorumSize` of a validator set of `n`
members is 2f+1 where f is the tolerated fault count, the ceiling of 2n/3. -/
def minQuorumSize (n : Nat) : Nat := (2 * n + 2) / 3

/-- Models `valSet.IsProposer(addr)`. -/
def ValidatorSet.isProposer (vs : ValidatorSet) (a : Address) : Bool :=
  vs.validators.get? vs.proposerIdx == some a

/-- Modelled from the spec: `valSet.CalcProposer(lastProposer, round)` with
the round-robin policy: the validator after the last proposer, shifted by the
round number. -/
def ValidatorSet.calcProposer (vs : ValidatorSet) (lastProposer : Address) (round : Nat) :
    ValidatorSet :=
  if vs.validators.length = 0 then vs
  else
    let seed :=
      match idxOf vs.validators lastProposer with
      | some i => i + round + 1
      | none => round
    { vs with proposerIdx := seed % vs.validators.length }

/-- Models `istanbul.Config`: the timeout parameters, `requestTimeout` in
milliseconds and `blockPeriod` in seconds. -/
structure Config where
  requestTimeout : Nat
  blockPeriod : Nat
deriving DecidableEq, Repr

/-- A round-change timer, reified: its duration in milliseconds and the
event its expiry posts into the event loop. -/
structure TimerSpec where
  durationMillis : Nat
  fireEvent : Event
deriving DecidableEq, Repr

/-- Models the backoff term of the round-change timeout (source
`newRoundChangeTimerForView`): the expected block period for round 0 and an
exponential backoff capped at 2^5 seconds afterwards, in milliseconds. -/
def roundChangeBackoffMillis (cfg : Config) (round : Nat) : Nat :=
  if round = 0 then cfg.blockPeriod * 1000 else 2 ^ (min round 5) * 1000

/-- Models `newRoundChangeTimerForView` (source core.go): the timer runs for
`requestTimeout` plus the backoff and, on expiry, posts a `timeoutEvent`
carrying the view it was set for. -/
def newRoundChangeTimerForView (cfg : Config) (view : View) : TimerSpec :=
  { durationMillis := cfg.requestTimeout + roundChangeBackoffMillis cfg view.round.toNat
    fireEvent := Event.timeout view }

/-- Models `roundState`: the per-(sequence, round) working state that
startNewRound creates and replaces. -/
structure RoundState where
  sequence : Int
  round : Int
  desiredRound : Int
  pendingRequest : Option Request
  preparedCertificate : PreparedCertificate
deriving DecidableEq, Repr

/-- Modelled from the spec: `newRoundState` (file roundstate.go, not under
src/): a fresh working state for a view with the given pending request and
prepared certificate and empty message stores. -/
def newRoundState (view : View) (pendingRequest : Option Request)
    (preparedCertificate : PreparedCertificate) : RoundState :=
  { sequence := view.sequence, round := view.round, desiredRound := view.round
    pendingRequest := pendingRequest, preparedCertificate := preparedCertificate }

/-- Models the fields of the `core` struct that round transitions touch. -/
structure CoreState where
  address : Address
  state : IstState
  current : Option RoundState
  valSet : ValidatorSet
  roundChangeSet : RoundChangeSet
deriving DecidableEq, Repr

/-- Models the Backend calls the round transitions make: `LastProposal()`
and `Validators(lastProposal)`. -/
structure Backend where
  lastProposalNumber : Int
  lastProposer : Address
  validators : ValidatorSet
deriving DecidableEq, Repr

/-- Models `updateRoundState` (source core.go): on a round change with an
existing round state the pending request and prepared certificate are carried
forward; otherwise a completely fresh round state is installed. -/
def updateRoundState (c : CoreState) (view : View) (roundChange : Bool) : CoreState :=
  match roundChange, c.current with
  | true, some cur =>
    { c with current := some (newRoundState view cur.pendingRequest cur.preparedCertificate) }
  | _, _ =>
    { c with current := some (newRoundState view none EmptyPreparedCertificate) }

/-- Models the selection loop of `getPreprepareWithRoundChangeCertificate`
(source core.go): scan the certificate messages, keeping the proposal of the
prepared certificate with the highest round seen so far (`maxRound` starts
at -1); messages that fail to decode, carry no prepared certificate or carry
a nil certificate view are skipped. -/
def selectRequestAux : List RCMessage → Int → Option Request → Option Request
  | [], _, req => req
  | m :: rest, maxRound, req =>
    if m.decodeOk then
      match m.pcRound with
      | some r =>
        if m.hasPC ∧ maxRound < r then
          selectRequestAux rest r (some { proposal := m.pcProposal })
        else selectRequestAux rest maxRound req
      | none => selectRequestAux rest maxRound req
    else selectRequestAux rest maxRound req

/-- The certificate round the selection loop compares: the round of the
embedded prepared-certificate view, with the -1 sentinel of the source for a
nil view. -/
def pcr (m : RCMessage) : Int := m.pcRound.getD (-1)

/-- Whether a ROUND-CHANGE message takes part in the proposal selection: it
decodes, it carries a prepared certificate, the certificate view is not nil
and its round is beyond the -1 sentinel. -/
def goodB (m : RCMessage) : Bool :=
  m.decodeOk && m.hasPC && decide ((-1 : Int) < pcr m)

/-- One step of the maximal-round selection: compare a message against the
best of the remaining messages, the earlier one winning ties. -/
def bestStep (m : RCMessage) : Option RCMessage → Option RCMessage
  | none => if goodB m then some m else none
  | some b => if goodB m ∧ pcr b ≤ pcr m then some m else some b

/-- The earliest message attaining the maximal certificate round among the
selection-eligible messages of a certificate. -/
def bestMsg : List RCMessage → Option RCMessage
  | [] => none
  | m :: rest => bestStep m (bestMsg rest)

/-- Models `getPreprepareWithRoundChangeCertificate` (source core.go): get
the round change certificate for the round, start with the pending request
and replace it by the proposal of the highest-round embedded prepared
certificate found among the certificate messages. -/
def getPreprepareWithRoundChangeCertificate (c : CoreState) (round : Int) :
    Except Unit (Option Request × List RCMessage) :=
  match c.roundChangeSet.getCertificate round.toNat (minQuorumSize c.valSet.validators.length) with
  | Except.error e => Except.error e
  | Except.ok cert =>
    match c.current with
    | none => Except.ok (selectRequestAux cert (-1) none, cert)
    | some cur => Except.ok (selectRequestAux cert (-1) cur.pendingRequest, cert)

/-- Shared tail of `startNewRound` (source core.go): clear the round change
set, install the new round state, recompute the proposer, enter
AcceptRequest, send the PRE-PREPARE when this node proposes a round change,
and start the round-change timer. -/
def startNewRoundTail (c : CoreState) (b : Backend) (roundChange : Bool)
    (request : Option Request) (cert : List RCMessage) (newView : View)
    (vs : ValidatorSet) : CoreState × List Action :=
  let c1 : CoreState := { c with valSet := vs, roundChangeSet := newRoundChangeSet }
  let c2 := updateRoundState c1 newView roundChange
  let c3 : CoreState :=
    { c2 with valSet := c2.valSet.calcProposer b.lastProposer newView.round.toNat
              state := IstState.acceptRequest }
  let preActions :=
    match request with
    | some req =>
      if roundChange ∧ c3.valSet.isProposer c.address then
        [Action.sendPreprepare req cert]
      else []
    | none => []
  (c3, preActions ++ [Action.resetTimer newView])

/-- Models `startNewRound` (source core.go).  With no round state the initial
round starts.  When the last committed proposal has caught up to (or passed)
the current sequence, the sequence advances to one beyond it with a fresh
round state and a validator set refreshed from the Backend.  When the last
proposal is exactly one behind and the target round is beyond the current
one, a round change within the sequence occurs, aborted when no round change
certificate can be produced.  Every other call returns with nothing changed. -/
def startNewRound (c : CoreState) (b : Backend) (round : Int) : CoreState × List Action :=
  match c.current with
  | none =>
    startNewRoundTail c b false none []
      { sequence := b.lastProposalNumber + 1, round := 0 } b.validators
  | some cur =>
    if cur.sequence ≤ b.lastProposalNumber then
      startNewRoundTail c b false cur.pendingRequest []
        { sequence := b.lastProposalNumber + 1, round := 0 } b.validators
    else if b.lastProposalNumber = cur.sequence - 1 then
      if round = cur.round then (c, [])
      else if round < cur.round then (c, [])
      else
        match getPreprepareWithRoundChangeCertificate c round with
        | Except.error _ => (c, [])
        | Except.ok (request, cert) =>
          startNewRoundTail c b true request cert
            { sequence := cur.sequence, round := round } c.valSet
    else (c, [])

/-- Models `waitForDesiredRound` (source core.go): a non-increasing target is
ignored; otherwise the node enters WaitingForNewRound, records the desired
round, recomputes the proposer for it, resets the round-change timer for
(sequence, r) and broadcasts a ROUND-CHANGE for r. -/
def waitForDesiredRound (c : CoreState) (b : Backend) (r : Int) : CoreState × List Action :=
  match c.current with
  | none => (c, [])
  | some cur =>
    if r ≤ cur.desiredRound then (c, [])
    else
      let desiredView : View := { sequence := cur.sequence, round := r }
      ({ c with state := IstState.waitingForNewRound
                current := some { cur with desiredRound := r }
                valSet := c.valSet.calcProposer b.lastProposer r.toNat },
        [Action.resetTimer desiredView, Action.sendRoundChange r])

/-- Models a stored COMMIT message: the sender and its committed seal. -/
structure CommitMsg where
  address : Address
  committedSeal : Nat
deriving DecidableEq, Repr

/-- Models the state `commit()` reads: the accepted proposal (nil when none
was accepted), the COMMIT store values and the validator list behind
`GetAddressIndex`. -/
structure CommitCore where
  state : IstState
  proposal : Option Proposal
  commits : List CommitMsg
  valSet : List Address
deriving DecidableEq, Repr

/-- Outcome of `commit()`: either the new state with the effects performed,
or the panic the source raises when a committer is unknown to the
validator set. -/
inductive CommitOutcome where
  | ok (c : CommitCore) (effects : List Action)
  | panicked
deriving DecidableEq, Repr

/-- Validator-set indices of all commit senders; `none` when some sender is
not in the validator list (the source panics there). -/
def collectIndices (vals : List Address) : List CommitMsg → Option (List Nat)
  | [] => some []
  | m :: rest =>
    match idxOf vals m.address with
    | none => none
    | some j => (collectIndices vals rest).map (fun l => j :: l)

/-- Models `commit()` (source core.go).  The state is set to Committed
first.  With no proposal nothing else happens.  Otherwise the committed
seals are gathered into a bitmap over validator indices and an aggregate,
and `Backend.Commit` is called; when it fails the core sends the next round
change and returns. -/
def commitRun (c : CommitCore) (backendOk : Bool) : CommitOutcome :=
  let c' : CommitCore := { c with state := IstState.committed }
  match c.proposal with
  | none => CommitOutcome.ok c' []
  | some p =>
    match collectIndices c.valSet c.commits with
    | none => CommitOutcome.panicked
    | some idxs =>
      let bitmap := idxs.foldl (fun acc j => acc ||| 2 ^ j) 0
      let seals := c.commits.map (fun m => m.committedSeal)
      if backendOk then CommitOutcome.ok c' [Action.backendCommit p bitmap seals]
      else CommitOutcome.ok c'
        [Action.backendCommit p bitmap seals, Action.sendNextRoundChange]

/-- Models the `makeBlock` helper of the tests: blocks with distinct hashes. -/
def makeBlock (n : Nat) : Proposal := { number := Int.ofNat n, hash := 100 + n }

/-- A PREPARE certificate message for view (round 0, sequence 1) over
`makeBlock 0`, as built by `getPreparedCertificate` in the tests. -/
def pm (a : Address) : CertMsg :=
  { code := MsgCode.msgPrepare, address := a, round := 0, sequence := 1
    digest := (makeBlock 0).hash }

/-- The same message at the future sequence 10. -/
def pmFuture (a : Address) : CertMsg :=
  { code := MsgCode.msgPrepare, address := a, round := 0, sequence := 10
    digest := (makeBlock 0).hash }

/-- Mirrors the valid certificate of TestVerifyPreparedCertificate. -/
def validPC : PreparedCertificate :=
  { proposal := makeBlock 0, prepareOrCommitMessages := [pm 10, pm 11, pm 12] }

/-- Mirrors the duplicate-message certificate of the test: the second
message replaced by the first. -/
def dupPC : PreparedCertificate :=
  { proposal := makeBlock 0, prepareOrCommitMessages := [pm 10, pm 10, pm 12] }

/-- Mirrors the future-view certificate of the test. -/
def futurePC : PreparedCertificate :=
  { proposal := makeBlock 0
    prepareOrCommitMessages := [pmFuture 10, pmFuture 11, pmFuture 12] }

/-- Mirrors the certificate of the test whose first message is a
ROUND-CHANGE message. -/
def codePC : PreparedCertificate :=
  { proposal := makeBlock 0
    prepareOrCommitMessages :=
      [{ code := MsgCode.msgRoundChange, address := 10, round := 0, sequence := 1
         digest := (makeBlock 0).hash }, pm 11, pm 12] }

/-- Mirrors the hash-mismatch certificate of the test: a duplicated message
and the proposal replaced by a different block. -/
def mismatchPC : PreparedCertificate :=
  { proposal := makeBlock 1, prepareOrCommitMessages := [pm 10, pm 10, pm 12] }

/-- Single-validator set for the concrete round-change scenarios. -/
def vsOne : ValidatorSet := { validators := [5], proposerIdx := 0 }

/-- A ROUND-CHANGE message from validator 5 carrying a prepared certificate
at round 0 over `makeBlock 3`. -/
def rcMsgB : RCMessage :=
  { address := 5, decodeOk := true, hasPC := true, pcRound := some 0
    pcProposal := makeBlock 3 }

/-- Round change set holding `rcMsgB` at round 1. -/
def rcsOne : RoundChangeSet :=
  { msgsForRound := [(1, [rcMsgB])], latestRoundForVal := [(5, 1)] }

/-- Concrete core about to round-change from (sequence 2, round 0) with a
pending request over `makeBlock 2`. -/
def coreRC : CoreState :=
  { address := 5, state := IstState.acceptRequest
    current := some
      { sequence := 2, round := 0, desiredRound := 0
        pendingRequest := some { proposal := makeBlock 2 }
        preparedCertificate := EmptyPreparedCertificate }
    valSet := vsOne, roundChangeSet := rcsOne }

/-- Backend matching `coreRC`: last proposal number 1, last proposer 5. -/
def backendRC : Backend :=
  { lastProposalNumber := 1, lastProposer := 5, validators := vsOne }

/-- Single-validator set for the catch-up scenario. -/
def vsSeven : ValidatorSet := { validators := [7], proposerIdx := 0 }

/-- Concrete core at sequence 5 with an existing round state. -/
def coreCatchUp : CoreState :=
  { address := 7, state := IstState.acceptRequest
    current := some
      { sequence := 5, round := 0, desiredRound := 0, pendingRequest := none
        preparedCertificate := EmptyPreparedCertificate }
    valSet := vsSeven, roundChangeSet := newRoundChangeSet }

/-- Backend whose last proposal (number 6) is ahead of the current sequence
by more than zero: the catch-up input of `startNewRound`. -/
def backendCatchUp : Backend :=
  { lastProposalNumber := 6, lastProposer := 7, validators := vsSeven }

/-- Concrete core used to exercise `waitForDesiredRound`. -/
def coreWait : CoreState :=
  { address := 5, state := IstState.acceptRequest
    current := some
      { sequence := 2, round := 0, desiredRound := 0, pendingRequest := none
        preparedCertificate := EmptyPreparedCertificate }
    valSet := vsOne, roundChangeSet := newRoundChangeSet }

/-- Concrete commit-phase state: one COMMIT from validator 5 with seal 77. -/
def commitCoreEx : CommitCore :=
  { state := IstState.prepared, proposal := some (makeBlock 0)
    commits := [{ address := 5, committedSeal := 77 }], valSet := [5] }

/-- Concrete PREPARE-phase state at view (sequence 1, round 0) over a
proposal with hash 100, in state Preprepared with an empty store. -/
def prepCoreEx : PrepareCore :=
  { sequence := 1, round := 0, proposalHash := 100, prepares := []
    state := IstState.preprepared }

/-- A ROUND-CHANGE message from validator 4 without prepared certificate. -/
def msgFour : RCMessage :=
  { address := 4, decodeOk := true, hasPC := false, pcRound := none
    pcProposal := makeBlock 0 }

/-- Round change set with the message of validator 4 stored at round 0. -/
def rcsFour : RoundChangeSet :=
  { msgsForRound := [(0, [msgFour])], latestRoundForVal := [(4, 0)] }

/-- Round change set whose latest-round table holds two senders, at rounds 3
and 5. -/
def rcsTwo : RoundChangeSet :=
  { msgsForRound := [], latestRoundForVal := [(1, 3), (2, 5)] }

/-- C7: for every view for which a round-change timer is started, the
duration is `requestTimeout` plus a backoff b(round) with b(0) the block
period and b(k) = 2^min(k,5) seconds for k > 0, hence capped at 32 seconds
for every round at least 5; expiry posts a `timeoutEvent` carrying exactly
the view the timer was set for. -/
theorem newRoundChangeTimerForView_spec (cfg : Config) (view : View) :
    (newRoundChangeTimerForView cfg view).durationMillis
      = cfg.requestTimeout + roundChangeBackoffMillis cfg view.round.toNat
    ∧ roundChangeBackoffMillis cfg 0 = cfg.blockPeriod * 1000
    ∧ (∀ k : Nat, 0 < k → roundChangeBackoffMillis cfg k = 2 ^ (min k 5) * 1000)
    ∧ (∀ k : Nat, 5 ≤ k → roundChangeBackoffMillis cfg k = 32 * 1000)
    ∧ (newRoundChangeTimerForView cfg view).fireEvent = Event.timeout view := by
  refine ⟨rfl, by simp [roundChangeBackoffMillis], ?_, ?_, rfl⟩
  · intro k hk
    simp [roundChangeBackoffMillis, Nat.pos_iff_ne_zero.mp hk]
  · intro k hk
    have hk0 : k ≠ 0 := by omega
    have hmin : min k 5 = 5 := by omega
    simp [roundChangeBackoffMillis, hk0, hmin]

/-- C7 witness: concrete evaluation of the timer rules at round 7 with a
3000 ms request timeout and a 1 s block period. -/
theorem newRoundChangeTimerForView_spec_witness :
    ((0 : Nat) < 7
      ∧ roundChangeBackoffMillis { requestTimeout := 3000, blockPeriod := 1 } 7
          = 2 ^ (min 7 5) * 1000)
    ∧ ((5 : Nat) ≤ 7
      ∧ roundChangeBackoffMillis { requestTimeout := 3000, blockPeriod := 1 } 7 = 32 * 1000) :=
  ⟨⟨by decide,
    (newRoundChangeTimerForView_spec { requestTimeout := 3000, blockPeriod := 1 }
      { sequence := 1, round := 7 }).2.2.1 7 (by decide)⟩,
   ⟨by decide,
    (newRoundChangeTimerForView_spec { requestTimeout := 3000, blockPeriod := 1 }
      { sequence := 1, round := 7 }).2.2.2.1 7 (by decide)⟩⟩

/-- C3: `waitForDesiredRound(r)` with a target not beyond the current
desired round changes nothing; with a greater target the state becomes
WaitingForNewRound, the desired round becomes r, the proposer is recomputed
for round r, the round-change timer is reset for (sequence, r) and a
ROUND-CHANGE for round r is broadcast; in all cases the desired round never
decreases. -/
theorem waitForDesiredRound_spec (c : CoreState) (b : Backend) (r : Int) (cur : RoundState)
    (hcur : c.current = some cur) :
    (r ≤ cur.desiredRound → waitForDesiredRound c b r = (c, []))
    ∧ (cur.desiredRound < r →
        waitForDesiredRound c b r =
          ({ c with state := IstState.waitingForNewRound
                    current := some { cur with desiredRound := r }
                    valSet := c.valSet.calcProposer b.lastProposer r.toNat },
            [Action.resetTimer { sequence := cur.sequence, round := r },
             Action.sendRoundChange r]))
    ∧ (∀ cur', (waitForDesiredRound c b r).1.current = some cur' →
        cur.desiredRound ≤ cur'.desiredRound) := by
  by_cases h : r ≤ cur.desiredRound
  · refine ⟨fun _ => ?_, fun h' => absurd h (not_le.mpr h'), fun cur' hcur' => ?_⟩
    · simp [waitForDesiredRound, hcur, h]
    · have : waitForDesiredRound c b r = (c, []) := by
        simp [waitForDesiredRound, hcur, h]
      rw [this] at hcur'
      simp only at hcur'
      rw [hcur] at hcur'
      cases hcur'
      exact le_refl _
  · have h' : cur.desiredRound < r := not_le.mp h
    have heq : waitForDesiredRound c b r =
        ({ c with state := IstState.waitingForNewRound
                  current := some { cur with desiredRound := r }
                  valSet := c.valSet.calcProposer b.lastProposer r.toNat },
          [Action.resetTimer { sequence := cur.sequence, round := r },
           Action.sendRoundChange r]) := by
      simp [waitForDesiredRound, hcur, h]
    refine ⟨fun hle => absurd hle h, fun _ => heq, fun cur' hcur' => ?_⟩
    rw [heq] at hcur'
    simp only at hcur'
    cases hcur'
    exact le_of_lt h'

/-- C3 witness: concrete round-change wait from desired round 0 to 3. -/
theorem waitForDesiredRound_spec_witness :
    waitForDesiredRound coreWait backendRC 3 =
      ({ coreWait with
          state := IstState.waitingForNewRound
          current := some
            { sequence := 2, round := 0, desiredRound := 3
              pendingRequest := none
              preparedCertificate := EmptyPreparedCertificate }
          valSet := coreWait.valSet.calcProposer backendRC.lastProposer (3 : Int).toNat },
        [Action.resetTimer { sequence := 2, round := 3 },
         Action.sendRoundChange 3]) :=
  (waitForDesiredRound_spec coreWait backendRC 3
    { sequence := 2, round := 0, desiredRound := 0, pendingRequest := none
      preparedCertificate := EmptyPreparedCertificate } rfl).2.1 (by decide)

theorem idxOf_eq_some_of_mem (l : List Address) (a : Address) (h : a ∈ l) :
    ∃ n, idxOf l a = some n := by
  induction l with
  | nil => cases h
  | cons x xs ih =>
    by_cases hx : x = a
    · exact ⟨0, by simp [idxOf, hx]⟩
    · have hmem : a ∈ xs := by
        cases h with
        | head => exact absurd rfl hx
        | tail _ h' => exact h'
      obtain ⟨n, hn⟩ := ih hmem
      exact ⟨n + 1, by simp [idxOf, hx, hn]⟩

theorem collectIndices_eq_some (vals : List Address) (commits : List CommitMsg)
    (h : ∀ m ∈ commits, m.address ∈ vals) :
    ∃ l, collectIndices vals commits = some l := by
  induction commits with
  | nil => exact ⟨[], rfl⟩
  | cons m rest ih =>
    obtain ⟨n, hn⟩ := idxOf_eq_some_of_mem vals m.address (h m (List.mem_cons_self m rest))
    obtain ⟨l, hl⟩ := ih (fun m' hm' => h m' (List.mem_cons_of_mem m hm'))
    exact ⟨n :: l, by simp [collectIndices, hn, hl]⟩

/-- C10: whenever every commit sender is a known validator, `commit()` never
panics; with `Backend.Commit` failing it sets the state to Committed, calls
the backend once and then sends the next round change instead of finalizing;
with a nil current proposal it sets the state to Committed without calling
`Backend.Commit` at all. -/
theorem commitRun_spec (c : CommitCore)
    (hmem : ∀ m ∈ c.commits, m.address ∈ c.valSet) :
    (∀ p, c.proposal = some p → ∃ bitmap seals,
        commitRun c false = CommitOutcome.ok { c with state := IstState.committed }
          [Action.backendCommit p bitmap seals, Action.sendNextRoundChange])
    ∧ (c.proposal = none →
        commitRun c false = CommitOutcome.ok { c with state := IstState.committed } []
        ∧ commitRun c true = CommitOutcome.ok { c with state := IstState.committed } []) := by
  constructor
  · intro p hp
    obtain ⟨idxs, hidx⟩ := collectIndices_eq_some c.valSet c.commits hmem
    refine ⟨idxs.foldl (fun acc j => acc ||| 2 ^ j) 0, c.commits.map (fun m => m.committedSeal), ?_⟩
    simp [commitRun, hp, hidx]
  · intro hp
    constructor <;> simp [commitRun, hp]

/-- C10 witness: a commit store with one known sender, a failing backend and
then a nil proposal. -/
theorem commitRun_spec_witness :
    (∃ bitmap seals,
      commitRun commitCoreEx false =
        CommitOutcome.ok { commitCoreEx with state := IstState.committed }
          [Action.backendCommit (makeBlock 0) bitmap seals, Action.sendNextRoundChange])
    ∧ (commitRun { commitCoreEx with proposal := none } false =
        CommitOutcome.ok
          { commitCoreEx with proposal := none, state := IstState.committed } []) :=
  ⟨(commitRun_spec commitCoreEx (by decide)).1 (makeBlock 0) rfl,
   ((commitRun_spec { commitCoreEx with proposal := none } (by decide)).2 rfl).1⟩

/-- C2 counterexample: with an existing round state at sequence 5 and a last
proposal at number 6 the claim predicts that the call only logs and returns
with the round state unchanged (6 is neither the current sequence nor the
current sequence minus one); the code instead catches up and advances the
sequence to 7. -/
theorem startNewRound_catchUp_counterexample :
    startNewRound coreCatchUp backendCatchUp 0 ≠ (coreCatchUp, [])
    ∧ (startNewRound coreCatchUp backendCatchUp 0).1.current.map RoundState.sequence = some 7
    ∧ coreCatchUp.current.map RoundState.sequence = some 5
    ∧ backendCatchUp.lastProposalNumber = 6 := by
  refine ⟨?_, by decide, by decide, by decide⟩
  decide

/-- C2 amended: for every `startNewRound(round)` call with an existing round
state, the sequence advances (new view (lastProposal.number + 1, 0),
validator set refreshed from the Backend, round change set discarded, fresh
round state) exactly when lastProposal.number is at least the current
sequence (the catch-up branch included); when lastProposal.number is the
current sequence minus one, round is beyond the current round and a round
change certificate can be produced, a round change within the sequence
occurs carrying forward pendingRequest and preparedCertificate; in every
other case the call returns with nothing changed. -/
theorem startNewRound_spec (c : CoreState) (b : Backend) (round : Int) (cur : RoundState)
    (hcur : c.current = some cur) :
    (cur.sequence ≤ b.lastProposalNumber →
      startNewRound c b round =
        ({ c with
            state := IstState.acceptRequest
            current := some (newRoundState { sequence := b.lastProposalNumber + 1, round := 0 }
              none EmptyPreparedCertificate)
            valSet := b.validators.calcProposer b.lastProposer 0
            roundChangeSet := newRoundChangeSet },
          [Action.resetTimer { sequence := b.lastProposalNumber + 1, round := 0 }]))
    ∧ (b.lastProposalNumber = cur.sequence - 1 → cur.round < round →
        ∀ request cert,
          getPreprepareWithRoundChangeCertificate c round = Except.ok (request, cert) →
          (startNewRound c b round).1.current =
            some (newRoundState { sequence := cur.sequence, round := round }
              cur.pendingRequest cur.preparedCertificate))
    ∧ (b.lastProposalNumber < cur.sequence - 1 → startNewRound c b round = (c, []))
    ∧ (b.lastProposalNumber = cur.sequence - 1 → round ≤ cur.round →
        startNewRound c b round = (c, []))
    ∧ (b.lastProposalNumber = cur.sequence - 1 → cur.round < round →
        getPreprepareWithRoundChangeCertificate c round = Except.error () →
        startNewRound c b round = (c, [])) := by
  refine ⟨?_, ?_, ?_, ?_, ?_⟩
  · intro hle
    have h0 : ((0 : Int)).toNat = 0 := rfl
    simp only [startNewRound, hcur, if_pos hle]
    cases hpr : cur.pendingRequest <;>
      simp [startNewRoundTail, updateRoundState, hcur, h0]
  · intro hseq hround request cert hok
    have h1 : ¬ cur.sequence ≤ b.lastProposalNumber := by omega
    have h2 : ¬ round = cur.round := by omega
    have h3 : ¬ round < cur.round := by omega
    simp only [startNewRound, hcur, if_neg h1, if_pos hseq, if_neg h2, if_neg h3, hok]
    simp [startNewRoundTail, updateRoundState, hcur]
  · intro hlt
    have h1 : ¬ cur.sequence ≤ b.lastProposalNumber := by omega
    have h2 : ¬ b.lastProposalNumber = cur.sequence - 1 := by omega
    simp [startNewRound, hcur, h1, h2]
  · intro hseq hle
    have h1 : ¬ cur.sequence ≤ b.lastProposalNumber := by omega
    by_cases h2 : round = cur.round
    · simp [startNewRound, hcur, h1, hseq, h2]
    · have h3 : round < cur.round := by omega
      simp [startNewRound, hcur, h1, hseq, h2, h3]
  · intro hseq hround herr
    have h1 : ¬ cur.sequence ≤ b.lastProposalNumber := by omega
    have h2 : ¬ round = cur.round := by omega
    have h3 : ¬ round < cur.round := by omega
    simp [startNewRound, hcur, h1, hseq, h2, h3, herr]

/-- C2 witness: the catch-up input drives the sequence-advance branch. -/
theorem startNewRound_spec_witness :
    startNewRound coreCatchUp backendCatchUp 0 =
      ({ coreCatchUp with
          state := IstState.acceptRequest
          current := some (newRoundState
            { sequence := backendCatchUp.lastProposalNumber + 1, round := 0 }
            none EmptyPreparedCertificate)
          valSet := backendCatchUp.validators.calcProposer backendCatchUp.lastProposer 0
          roundChangeSet := newRoundChangeSet },
        [Action.resetTimer { sequence := backendCatchUp.lastProposalNumber + 1, round := 0 }]) :=
  (startNewRound_spec coreCatchUp backendCatchUp 0
    { sequence := 5, round := 0, desiredRound := 0, pendingRequest := none
      preparedCertificate := EmptyPreparedCertificate } rfl).1 (by decide)

theorem verifyPCMsgs_eq_none_iff (s : Int) (pH : Hash) (fr fs : Int) (l : List CertMsg) :
    ∀ seen : List Address,
      verifyPCMsgs s pH fr fs seen l = none ↔
        ((∀ m ∈ l, (m.code = MsgCode.msgPrepare ∨ m.code = MsgCode.msgCommit)
            ∧ m.sequence ≤ s ∧ m.round = fr ∧ m.sequence = fs ∧ m.digest = pH)
          ∧ (l.map (fun m => m.address)).Nodup
          ∧ (∀ m ∈ l, m.address ∉ seen)) := by
  induction l with
  | nil => intro seen; simp [verifyPCMsgs]
  | cons m rest ih =>
    intro seen
    have hmem : m ∈ m :: rest := List.mem_cons_self m rest
    by_cases h1 : m.code = MsgCode.msgPrepare ∨ m.code = MsgCode.msgCommit
    case neg =>
      simp only [verifyPCMsgs, if_neg h1]
      exact ⟨fun h => Option.noConfusion h,
        fun h => absurd (h.1 m hmem).1 h1⟩
    case pos =>
    by_cases h2 : m.sequence ≤ s
    case neg =>
      simp only [verifyPCMsgs, if_pos h1, if_neg h2]
      exact ⟨fun h => Option.noConfusion h,
        fun h => absurd (h.1 m hmem).2.1 h2⟩
    case pos =>
    by_cases h3 : m.round = fr ∧ m.sequence = fs
    case neg =>
      simp only [verifyPCMsgs, if_pos h1, if_pos h2, if_neg h3]
      exact ⟨fun h => Option.noConfusion h,
        fun h => absurd ⟨(h.1 m hmem).2.2.1, (h.1 m hmem).2.2.2.1⟩ h3⟩
    case pos =>
    by_cases h4 : m.digest = pH
    case neg =>
      simp only [verifyPCMsgs, if_pos h1, if_pos h2, if_pos h3, if_neg h4]
      exact ⟨fun h => Option.noConfusion h,
        fun h => absurd (h.1 m hmem).2.2.2.2 h4⟩
    case pos =>
    by_cases h5 : m.address ∈ seen
    case pos =>
      simp only [verifyPCMsgs, if_pos h1, if_pos h2, if_pos h3, if_pos h4, if_pos h5]
      exact ⟨fun h => Option.noConfusion h,
        fun h => absurd h5 (h.2.2 m hmem)⟩
    case neg =>
      simp only [verifyPCMsgs, if_pos h1, if_pos h2, if_pos h3, if_pos h4, if_neg h5]
      rw [ih (m.address :: seen)]
      constructor
      · rintro ⟨hall, hnd, hseen⟩
        refine ⟨fun m' hm' => ?_, ?_, fun m' hm' => ?_⟩
        · rcases List.mem_cons.mp hm' with rfl | hm'
          · exact ⟨h1, h2, h3.1, h3.2, h4⟩
          · exact hall m' hm'
        · rw [List.map_cons, List.nodup_cons]
          refine ⟨?_, hnd⟩
          rw [List.mem_map]
          rintro ⟨m', hm', haddr⟩
          exact (hseen m' hm') (by rw [haddr]; exact List.mem_cons_self _ _)
        · rcases List.mem_cons.mp hm' with rfl | hm'
          · exact h5
          · exact fun hc => (hseen m' hm') (List.mem_cons_of_mem _ hc)
      · rintro ⟨hall, hnd, hseen⟩
        rw [List.map_cons, List.nodup_cons] at hnd
        refine ⟨fun m' hm' => hall m' (List.mem_cons_of_mem m hm'), hnd.2,
          fun m' hm' hc => ?_⟩
        rcases List.mem_cons.mp hc with heq | hc'
        · exact hnd.1 (List.mem_map.mpr ⟨m', hm', heq⟩)
        · exact (hseen m' (List.mem_cons_of_mem m hm')) hc'

theorem verifyPreparedCertificate_eq_none_iff (s : Int) (q : Nat)
    (cert : PreparedCertificate) (hq : 1 ≤ q) :
    verifyPreparedCertificate s q cert = none ↔ PCValid s q cert := by
  rcases hmsgs : cert.prepareOrCommitMessages with _ | ⟨first, rest⟩
  · simp only [verifyPreparedCertificate, PCValid, hmsgs]
    exact ⟨fun h => Option.noConfusion h,
      fun h => absurd h.1 (by simp; omega)⟩
  · have hfirst : first ∈ cert.prepareOrCommitMessages := by
      rw [hmsgs]; exact List.mem_cons_self _ _
    by_cases hlen : (first :: rest).length = q
    · simp only [verifyPreparedCertificate, hmsgs, if_pos hlen]
      rw [verifyPCMsgs_eq_none_iff]
      unfold PCValid
      rw [hmsgs]
      constructor
      · rintro ⟨hall, hnd, -⟩
        refine ⟨hlen, fun m hm m' hm' => ?_, fun m hm => (hall m hm).2.1,
          fun m hm => (hall m hm).1, hnd, fun m hm => (hall m hm).2.2.2.2⟩
        obtain ⟨-, -, hr, hs', hd⟩ := hall m hm
        obtain ⟨-, -, hr', hs'', hd'⟩ := hall m' hm'
        exact ⟨by rw [hr, hr'], by rw [hs', hs''], by rw [hd, hd']⟩
      · rintro ⟨hlen', hshare, hseq, hcode, hnd, hdig⟩
        refine ⟨fun m hm => ?_, hnd, by simp⟩
        have hsh := hshare m hm first (List.mem_cons_self _ _)
        exact ⟨hcode m hm, hseq m hm, hsh.1, hsh.2.1, hdig m hm⟩
    · simp only [verifyPreparedCertificate, PCValid, hmsgs, if_neg hlen]
      exact ⟨fun h => Option.noConfusion h, fun h => absurd h.1 hlen⟩

/-- C4: `verifyPreparedCertificate` accepts a certificate exactly when the
validity conditions of the specification hold, and on the test scenarios it
returns the stable error of the first violated condition: duplicated sender,
future sequence, non-PREPARE/COMMIT message code, digest differing from the
hash of the certificate proposal, and the empty certificate. -/
theorem verifyPreparedCertificate_spec :
    (∀ (s : Int) (q : Nat) (cert : PreparedCertificate), 1 ≤ q →
      (verifyPreparedCertificate s q cert = none ↔ PCValid s q cert))
    ∧ verifyPreparedCertificate 1 3 validPC = none
    ∧ verifyPreparedCertificate 1 3 dupPC = some PCErr.duplicate
    ∧ verifyPreparedCertificate 1 3 futurePC = some PCErr.msgView
    ∧ verifyPreparedCertificate 1 3 codePC = some PCErr.msgCode
    ∧ verifyPreparedCertificate 1 3 mismatchPC = some PCErr.digestMismatch
    ∧ verifyPreparedCertificate 1 3 EmptyPreparedCertificate = some PCErr.numMsgs :=
  ⟨fun s q cert hq => verifyPreparedCertificate_eq_none_iff s q cert hq,
    by decide, by decide, by decide, by decide, by decide, by decide⟩

/-- C4 witness: the acceptance criterion evaluated at the valid concrete
certificate of the tests. -/
theorem verifyPreparedCertificate_spec_witness :
    (1 : Nat) ≤ 3
    ∧ (verifyPreparedCertificate 1 3 validPC = none ↔ PCValid 1 3 validPC) :=
  ⟨by decide, verifyPreparedCertificate_spec.1 1 3 validPC (by decide)⟩

/-- C6: every PREPARE whose subject differs from the current subject in any
way -- a different round, a different or missing sequence, or a different
digest -- fails verification with the stable error `errInconsistentSubject`
and is never inserted into the Prepares store. -/
theorem verifyPrepare_inconsistent (c : PrepareCore) (p : Subject)
    (h : p ≠ currentSubject c) :
    verifyPrepare c p = some IstErr.inconsistentSubject
    ∧ ∀ (q : Nat) (sender : Address),
        (handlePrepare q c sender p).1.prepares = c.prepares := by
  refine ⟨by simp [verifyPrepare, h], fun q sender => ?_⟩
  cases hcm : checkMessage c p with
  | some e => simp [handlePrepare, hcm]
  | none => simp [handlePrepare, hcm, verifyPrepare, h]

/-- C6 witness: a PREPARE with a wrong digest against the concrete
prepare-phase state. -/
theorem verifyPrepare_inconsistent_witness :
    ({ round := 0, sequence := some 1, digest := 999 } : Subject) ≠ currentSubject prepCoreEx
    ∧ verifyPrepare prepCoreEx { round := 0, sequence := some 1, digest := 999 }
        = some IstErr.inconsistentSubject
    ∧ (handlePrepare 3 prepCoreEx 2
        { round := 0, sequence := some 1, digest := 999 }).1.prepares
        = prepCoreEx.prepares := by
  have h : ({ round := 0, sequence := some 1, digest := 999 } : Subject)
      ≠ currentSubject prepCoreEx := by decide
  obtain ⟨h1, h2⟩ := verifyPrepare_inconsistent prepCoreEx
    { round := 0, sequence := some 1, digest := 999 } h
  exact ⟨h, h1, h2 3 2⟩

theorem handlePrepares_from_prepared (q : Nat) (msgs : List (Address × Subject)) :
    ∀ c : PrepareCore, c.state = IstState.prepared →
      (handlePrepares q c msgs).1.state = IstState.prepared
      ∧ (handlePrepares q c msgs).2 = [] := by
  induction msgs with
  | nil => intro c hc; exact ⟨hc, rfl⟩
  | cons mp rest ih =>
    rcases mp with ⟨sender, p⟩
    intro c hc
    have hstep : (handlePrepare q c sender p).1.state = IstState.prepared
        ∧ (handlePrepare q c sender p).2 = [] := by
      cases hcm : checkMessage c p with
      | some e => simp [handlePrepare, hcm, hc]
      | none =>
        cases hvp : verifyPrepare c p with
        | some e => simp [handlePrepare, hcm, hvp, hc]
        | none => simp [handlePrepare, hcm, hvp, hc]
    obtain ⟨hs2, ha2⟩ := ih (handlePrepare q c sender p).1 hstep.1
    simp [handlePrepares, hs2, hstep.2, ha2]

theorem handlePrepares_aux (q : Nat) (senders : List Address) :
    ∀ (c : PrepareCore) (sub : Subject), sub = currentSubject c →
      c.state = IstState.preprepared → senders.Nodup →
      (∀ a ∈ senders, a ∉ c.prepares) → c.prepares.length < q →
      (q ≤ c.prepares.length + senders.length →
        (handlePrepares q c (senders.map (fun a => (a, sub)))).1.state = IstState.prepared
        ∧ (handlePrepares q c (senders.map (fun a => (a, sub)))).2
            = [Action.broadcastCommit sub])
      ∧ (c.prepares.length + senders.length < q →
        (handlePrepares q c (senders.map (fun a => (a, sub)))).1.state
            = IstState.preprepared
        ∧ (handlePrepares q c (senders.map (fun a => (a, sub)))).2 = []
        ∧ (handlePrepares q c (senders.map (fun a => (a, sub)))).1.prepares.length
            = c.prepares.length + senders.length) := by
  induction senders with
  | nil =>
    intro c sub hsub hst hnd hfresh hlt
    constructor
    · intro hge; exfalso; simp at hge; omega
    · intro _; exact ⟨hst, rfl, by simp [handlePrepares]⟩
  | cons a rest ih =>
    intro c sub hsub hst hnd hfresh hlt
    have hcm : checkMessage c sub = none := by
      rw [hsub]; simp [checkMessage, currentSubject]
    have hvp : verifyPrepare c sub = none := by
      rw [hsub]; simp [verifyPrepare]
    have hmemA : a ∉ c.prepares := hfresh a (List.mem_cons_self a rest)
    have hins : insertAddr c.prepares a = a :: c.prepares := by
      simp [insertAddr, hmemA]
    have hsub' : sub = currentSubject { c with prepares := a :: c.prepares } := hsub
    by_cases hq1 : q ≤ c.prepares.length + 1
    · have hstep : handlePrepare q c a sub =
          ({ c with prepares := a :: c.prepares, state := IstState.prepared },
            [Action.broadcastCommit sub]) := by
        simp only [handlePrepare, hcm, hvp, hins]
        rw [← hsub']
        split
        · rfl
        · next h => exact absurd ⟨by simpa using hq1, hst⟩ h
      have hrest := handlePrepares_from_prepared q (rest.map (fun a' => (a', sub)))
        { c with prepares := a :: c.prepares, state := IstState.prepared } rfl
      constructor
      · intro _
        constructor
        · simp only [List.map_cons, handlePrepares, hstep]
          exact hrest.1
        · simp only [List.map_cons, handlePrepares, hstep]
          simp [hrest.2]
      · intro hlt'
        exfalso
        simp at hlt'
        omega
    · have hstep : handlePrepare q c a sub =
          ({ c with prepares := a :: c.prepares }, []) := by
        simp only [handlePrepare, hcm, hvp, hins]
        split
        · next h => exact absurd (by simpa using h.1) hq1
        · rfl
      have hfresh' : ∀ a' ∈ rest, a' ∉ a :: c.prepares := by
        intro a' ha'
        rw [List.mem_cons]
        rintro (rfl | hmem)
        · exact (List.nodup_cons.mp hnd).1 ha'
        · exact hfresh a' (List.mem_cons_of_mem a ha') hmem
      have hlt' : ({ c with prepares := a :: c.prepares } : PrepareCore).prepares.length < q := by
        simp; omega
      have := ih { c with prepares := a :: c.prepares } sub hsub' hst
        (List.nodup_cons.mp hnd).2 hfresh' hlt'
      constructor
      · intro hge
        have h1 := this.1 (by simp; simp at hge; omega)
        constructor
        · simp only [List.map_cons, handlePrepares, hstep]
          exact h1.1
        · simp only [List.map_cons, handlePrepares, hstep]
          simp [h1.2]
      · intro hlt2
        have h2 := this.2 (by simp; simp at hlt2; omega)
        refine ⟨?_, ?_, ?_⟩
        · simp only [List.map_cons, handlePrepares, hstep]
          exact h2.1
        · simp only [List.map_cons, handlePrepares, hstep]
          simp [h2.2.1]
        · simp only [List.map_cons, handlePrepares, hstep]
          rw [h2.2.2]
          simp
          omega

/-- C5: from state Preprepared with an empty PREPARE store, processing
PREPAREs from distinct senders that all carry the current subject moves the
node to Prepared and broadcasts exactly one COMMIT whose subject is the
current view and accepted proposal hash as soon as the count reaches the
quorum; with fewer messages the state stays Preprepared and no COMMIT is
sent. -/
theorem handlePrepare_quorum_spec (q : Nat) (c : PrepareCore) (senders : List Address)
    (hq : 1 ≤ q) (hst : c.state = IstState.preprepared) (hpr : c.prepares = [])
    (hnd : senders.Nodup) :
    (q ≤ senders.length →
      (handlePrepares q c (senders.map (fun a => (a, currentSubject c)))).1.state
          = IstState.prepared
      ∧ (handlePrepares q c (senders.map (fun a => (a, currentSubject c)))).2
          = [Action.broadcastCommit (currentSubject c)])
    ∧ (senders.length < q →
      (handlePrepares q c (senders.map (fun a => (a, currentSubject c)))).1.state
          = IstState.preprepared
      ∧ (handlePrepares q c (senders.map (fun a => (a, currentSubject c)))).2 = []) := by
  have h := handlePrepares_aux q senders c (currentSubject c) rfl hst hnd
    (by intro a ha; rw [hpr]; exact List.not_mem_nil a) (by rw [hpr]; simpa using hq)
  rw [hpr] at h
  simp only [List.length_nil, Nat.zero_add] at h
  exact ⟨fun hge => h.1 hge, fun hlt => ⟨(h.2 hlt).1, (h.2 hlt).2.1⟩⟩

/-- C5 witness: three distinct senders reach the quorum of three at the
concrete prepare-phase state and trigger exactly one COMMIT. -/
theorem handlePrepare_quorum_spec_witness :
    (3 : Nat) ≤ 3
    ∧ (handlePrepares 3 prepCoreEx
        ([1, 2, 3].map (fun a => (a, currentSubject prepCoreEx)))).1.state
        = IstState.prepared
    ∧ (handlePrepares 3 prepCoreEx
        ([1, 2, 3].map (fun a => (a, currentSubject prepCoreEx)))).2
        = [Action.broadcastCommit (currentSubject prepCoreEx)] := by
  have h := (handlePrepare_quorum_spec 3 prepCoreEx [1, 2, 3]
    (by decide) rfl rfl (by decide)).1 (by decide)
  exact ⟨by decide, h.1, h.2⟩

theorem addToEntry_idem (m : RCMessage) (ms : List RCMessage) :
    addToEntry m (addToEntry m ms) = addToEntry m ms := by
  unfold addToEntry
  by_cases h : ms.any (fun x => x.address == m.address)
  · simp [h]
  · simp [h]

theorem addMsg_idem (r : Nat) (m : RCMessage) :
    ∀ l : List (Nat × List RCMessage), addMsg (addMsg l r m) r m = addMsg l r m := by
  intro l
  induction l with
  | nil => simp [addMsg, addToEntry]
  | cons p rest ih =>
    rcases p with ⟨k, ms⟩
    by_cases hk : k = r
    · simp [addMsg, hk, addToEntry_idem]
    · simp [addMsg, hk, ih]

theorem getAssoc_setAssoc_self {β : Type} (l : List (Nat × β)) (a : Nat) (b : β) :
    getAssoc (setAssoc l a b) a = some b := by
  induction l with
  | nil => simp [setAssoc, getAssoc]
  | cons p rest ih =>
    rcases p with ⟨k, b'⟩
    by_cases hk : k = a
    · simp [setAssoc, getAssoc, hk]
    · simp [setAssoc, getAssoc, hk, ih]

theorem getAssoc_addMsg_ne (r : Nat) (m : RCMessage) (k : Nat) (hk : k ≠ r) :
    ∀ l : List (Nat × List RCMessage), getAssoc (addMsg l r m) k = getAssoc l k := by
  intro l
  induction l with
  | nil =>
    simp [addMsg, getAssoc]
    omega
  | cons p rest ih =>
    rcases p with ⟨k', ms⟩
    by_cases hk' : k' = r
    · subst hk'
      have hne : ¬ k' = k := fun h => hk h.symm
      simp [addMsg, getAssoc, hne]
    · by_cases hkk : k' = k
      · subst hkk
        simp [addMsg, getAssoc, hk']
      · simp [addMsg, getAssoc, hk', hkk, ih]

theorem eraseAddr_clears (r : Nat) (a : Address) :
    ∀ l : List (Nat × List RCMessage),
      ∀ x ∈ (getAssoc (eraseAddr l r a) r).getD [], x.address ≠ a := by
  intro l
  induction l with
  | nil => simp [eraseAddr, getAssoc]
  | cons p rest ih =>
    rcases p with ⟨k, ms⟩
    by_cases hk : k = r
    · subst hk
      intro x hx
      simp [eraseAddr, getAssoc, List.mem_filter] at hx
      exact hx.2
    · simpa [eraseAddr, getAssoc, hk] using ih

/-- C8: `roundChangeSet.Add` is idempotent per sender per round (repeating
an addition changes nothing, so in particular the per-round size is
unchanged), and a message for a higher round than a sender's recorded latest
round removes that sender from the lower round and records the new maximum
in `latestRoundForVal`. -/
theorem roundChangeSet_Add_spec (rcs : RoundChangeSet) (r : Nat) (m : RCMessage) :
    RoundChangeSet.Add (RoundChangeSet.Add rcs r m) r m = RoundChangeSet.Add rcs r m
    ∧ (∀ prev, getAssoc rcs.latestRoundForVal m.address = some prev → prev < r →
        getAssoc (RoundChangeSet.Add rcs r m).latestRoundForVal m.address = some r
        ∧ ∀ x ∈ (RoundChangeSet.Add rcs r m).msgsAt prev, x.address ≠ m.address) := by
  constructor
  · cases hprev : getAssoc rcs.latestRoundForVal m.address with
    | none =>
      simp [RoundChangeSet.Add, hprev, getAssoc_setAssoc_self, addMsg_idem]
    | some prev =>
      by_cases h1 : r < prev
      · simp [RoundChangeSet.Add, hprev, h1]
      · by_cases h2 : prev < r
        · simp [RoundChangeSet.Add, hprev, h1, h2, getAssoc_setAssoc_self, addMsg_idem]
        · have heq : prev = r := by omega
          subst heq
          simp [RoundChangeSet.Add, hprev, h1, h2, addMsg_idem]
  · intro prev hprev h2
    have h1 : ¬ r < prev := by omega
    constructor
    · simp only [RoundChangeSet.Add, hprev, if_neg h1, if_pos h2]
      exact getAssoc_setAssoc_self _ _ _
    · intro x hx
      simp only [RoundChangeSet.Add, hprev, if_neg h1, if_pos h2,
        RoundChangeSet.msgsAt] at hx
      rw [getAssoc_addMsg_ne r m prev (by omega)] at hx
      exact eraseAddr_clears prev m.address rcs.msgsForRound x hx

/-- C8 witness: re-adding the round-2 message of validator 4 changes
nothing, and its round-0 entry has been removed with the latest round now 2. -/
theorem roundChangeSet_Add_spec_witness :
    (RoundChangeSet.Add (RoundChangeSet.Add rcsFour 2 msgFour) 2 msgFour
        = RoundChangeSet.Add rcsFour 2 msgFour)
    ∧ getAssoc (RoundChangeSet.Add rcsFour 2 msgFour).latestRoundForVal msgFour.address
        = some 2
    ∧ ∀ x ∈ (RoundChangeSet.Add rcsFour 2 msgFour).msgsAt 0, x.address ≠ msgFour.address := by
  have h := roundChangeSet_Add_spec rcsFour 2 msgFour
  have h2 := h.2 0 (by decide) (by decide)
  exact ⟨h.1, h2.1, h2.2⟩

theorem listMax_eq_some_iff (l : List Nat) :
    ∀ m, listMax l = some m ↔ (m ∈ l ∧ ∀ x ∈ l, x ≤ m) := by
  induction l with
  | nil => intro m; simp [listMax]
  | cons x xs ih =>
    intro m
    cases hmax : listMax xs with
    | none =>
      have hnil : xs = [] := by
        cases xs with
        | nil => rfl
        | cons y ys =>
          cases h2 : listMax ys <;> simp [listMax, h2] at hmax
      subst hnil
      simp [listMax]
      omega
    | some mx =>
      have hmx := (ih mx).mp hmax
      simp only [listMax, hmax, Option.some.injEq, List.mem_cons]
      constructor
      · rintro rfl
        refine ⟨?_, ?_⟩
        · rcases Nat.le_total x mx with h | h
          · rw [Nat.max_eq_right h]
            exact Or.inr hmx.1
          · rw [Nat.max_eq_left h]
            exact Or.inl rfl
        · rintro y (rfl | hy)
          · exact Nat.le_max_left _ _
          · exact le_trans (hmx.2 y hy) (Nat.le_max_right _ _)
      · rintro ⟨hmem, hbound⟩
        have h1 : x ≤ m := hbound x (Or.inl rfl)
        have h2 : mx ≤ m := hbound mx (Or.inr hmx.1)
        have h3 : m ≤ max x mx := by
          rcases hmem with rfl | hmem
          · exact Nat.le_max_left _ _
          · exact le_trans (hmx.2 m hmem) (Nat.le_max_right _ _)
        omega

theorem listMin_eq_some_iff (l : List Nat) :
    ∀ m, listMin l = some m ↔ (m ∈ l ∧ ∀ x ∈ l, m ≤ x) := by
  induction l with
  | nil => intro m; simp [listMin]
  | cons x xs ih =>
    intro m
    cases hmin : listMin xs with
    | none =>
      have hnil : xs = [] := by
        cases xs with
        | nil => rfl
        | cons y ys =>
          cases h2 : listMin ys <;> simp [listMin, h2] at hmin
      subst hnil
      simp [listMin]
      omega
    | some mx =>
      have hmx := (ih mx).mp hmin
      simp only [listMin, hmin, Option.some.injEq, List.mem_cons]
      constructor
      · rintro rfl
        refine ⟨?_, ?_⟩
        · rcases Nat.le_total x mx with h | h
          · rw [Nat.min_eq_left h]
            exact Or.inl rfl
          · rw [Nat.min_eq_right h]
            exact Or.inr hmx.1
        · rintro y (rfl | hy)
          · exact Nat.min_le_left _ _
          · exact le_trans (Nat.min_le_right _ _) (hmx.2 y hy)
      · rintro ⟨hmem, hbound⟩
        have h1 : m ≤ x := hbound x (Or.inl rfl)
        have h2 : m ≤ mx := hbound mx (Or.inr hmx.1)
        have h3 : min x mx ≤ m := by
          rcases hmem with rfl | hmem
          · exact Nat.min_le_left _ _
          · exact le_trans (Nat.min_le_right _ _) (hmx.2 m hmem)
        omega

theorem listMax_isSome_of_ne_nil (l : List Nat) (h : l ≠ []) :
    ∃ m, listMax l = some m := by
  cases l with
  | nil => exact absurd rfl h
  | cons y ys =>
    cases h2 : listMax ys with
    | none => exact ⟨y, by simp [listMax, h2]⟩
    | some mx => exact ⟨max y mx, by simp [listMax, h2]⟩

theorem listMin_isSome_of_ne_nil (l : List Nat) (h : l ≠ []) :
    ∃ m, listMin l = some m := by
  cases l with
  | nil => exact absurd rfl h
  | cons y ys =>
    cases h2 : listMin ys with
    | none => exact ⟨y, by simp [listMin, h2]⟩
    | some mx => exact ⟨min y mx, by simp [listMin, h2]⟩

theorem countGE_le_length (l : List (Address × Nat)) (r : Nat) :
    countGE l r ≤ l.length := by
  unfold countGE
  induction l with
  | nil => exact le_refl _
  | cons p rest ih =>
    simp only [List.filter_cons, List.length_cons]
    by_cases hr : r ≤ p.2
    · simp [hr]
      omega
    · simp [hr]
      omega

theorem countGE_mono_pred (l : List (Address × Nat)) (r v : Nat)
    (h : ∀ p ∈ l, r ≤ p.2 → v ≤ p.2) : countGE l r ≤ countGE l v := by
  induction l with
  | nil => exact le_refl _
  | cons p rest ih =>
    have ih' := ih (fun q hq => h q (List.mem_cons_of_mem p hq))
    unfold countGE at ih' ⊢
    simp only [List.filter_cons]
    by_cases hr : r ≤ p.2
    · have hv : v ≤ p.2 := h p (List.mem_cons_self p rest) hr
      simp [hr, hv]
      omega
    · by_cases hv : v ≤ p.2
      · simp [hr, hv]
        omega
      · simp [hr, hv]
        omega

theorem countGE_pos_exists (l : List (Address × Nat)) (r : Nat)
    (h : 0 < countGE l r) : ∃ p ∈ l, r ≤ p.2 := by
  unfold countGE at h
  cases hf : l.filter (fun p => decide (r ≤ p.2)) with
  | nil => rw [hf] at h; simp at h
  | cons q qs =>
    have hq : q ∈ l.filter (fun p => decide (r ≤ p.2)) := by
      rw [hf]; exact List.mem_cons_self _ _
    have hq' := List.mem_filter.mp hq
    exact ⟨q, hq'.1, by simpa using hq'.2⟩

theorem exists_present_ge (l : List (Address × Nat)) (r : Nat)
    (h : 0 < countGE l r) :
    ∃ v, v ∈ l.map (fun p => p.2) ∧ r ≤ v ∧ countGE l r ≤ countGE l v := by
  have hne : (l.map (fun p => p.2)).filter (fun v => decide (r ≤ v)) ≠ [] := by
    obtain ⟨p, hp, hr⟩ := countGE_pos_exists l r h
    have hmem : p.2 ∈ (l.map (fun p => p.2)).filter (fun v => decide (r ≤ v)) :=
      List.mem_filter.mpr ⟨List.mem_map.mpr ⟨p, hp, rfl⟩, by simpa using hr⟩
    intro hnil
    rw [hnil] at hmem
    exact List.not_mem_nil _ hmem
  obtain ⟨vmin, hvmin⟩ := listMin_isSome_of_ne_nil _ hne
  have hspec := (listMin_eq_some_iff _ vmin).mp hvmin
  have hv1 := List.mem_filter.mp hspec.1
  refine ⟨vmin, hv1.1, by simpa using hv1.2, countGE_mono_pred l r vmin ?_⟩
  intro p hp hrp
  have hmem : p.2 ∈ (l.map (fun p => p.2)).filter (fun v => decide (r ≤ v)) :=
    List.mem_filter.mpr ⟨List.mem_map.mpr ⟨p, hp, rfl⟩, by simpa using hrp⟩
  exact hspec.2 p.2 hmem

/-- C9: `MaxRound(threshold)` returns the largest round R such that at
least `threshold` distinct senders have their latest round at least R (for
every positive threshold), is non-increasing as the threshold grows, and is
`none` for every threshold exceeding the number of distinct senders seen. -/
theorem roundChangeSet_MaxRound_spec (rcs : RoundChangeSet) :
    (∀ t R, 1 ≤ t →
      (rcs.MaxRound t = some R ↔
        (t ≤ countGE rcs.latestRoundForVal R
          ∧ ∀ R', R < R' → countGE rcs.latestRoundForVal R' < t)))
    ∧ (∀ t t' R', t ≤ t' → rcs.MaxRound t' = some R' →
        ∃ R, rcs.MaxRound t = some R ∧ R' ≤ R)
    ∧ (∀ t, (rcs.latestRoundForVal.map (fun p => p.1)).Nodup →
        rcs.latestRoundForVal.length < t → rcs.MaxRound t = none) := by
  refine ⟨?_, ?_, ?_⟩
  · intro t R ht
    unfold RoundChangeSet.MaxRound
    rw [listMax_eq_some_iff]
    constructor
    · rintro ⟨hmem, hbound⟩
      have hmem' := List.mem_filter.mp hmem
      have hR : t ≤ countGE rcs.latestRoundForVal R := by simpa using hmem'.2
      refine ⟨hR, fun R' hR' => ?_⟩
      by_contra hc
      push_neg at hc
      have hpos : 0 < countGE rcs.latestRoundForVal R' := by omega
      obtain ⟨v, hvmem, hvge, hvcount⟩ := exists_present_ge _ R' hpos
      have hvfil : v ∈ (rcs.latestRoundForVal.map (fun p => p.2)).filter
          (fun v => decide (t ≤ countGE rcs.latestRoundForVal v)) :=
        List.mem_filter.mpr ⟨hvmem, by simp; omega⟩
      have := hbound v hvfil
      omega
    · rintro ⟨hR, hup⟩
      have hpos : 0 < countGE rcs.latestRoundForVal R := by omega
      obtain ⟨v, hvmem, hvge, hvcount⟩ := exists_present_ge _ R hpos
      have hveq : v = R := by
        by_contra hne
        have hlt : R < v := by omega
        have := hup v hlt
        omega
      subst hveq
      refine ⟨List.mem_filter.mpr ⟨hvmem, by simpa using hR⟩, ?_⟩
      intro x hx
      have hx' := List.mem_filter.mp hx
      have hxt : t ≤ countGE rcs.latestRoundForVal x := by simpa using hx'.2
      by_contra hc
      push_neg at hc
      have := hup x hc
      omega
  · intro t t' R' htt hR'
    unfold RoundChangeSet.MaxRound at hR' ⊢
    have hspec := (listMax_eq_some_iff _ R').mp hR'
    have hmem' := List.mem_filter.mp hspec.1
    have hcnt : t' ≤ countGE rcs.latestRoundForVal R' := by simpa using hmem'.2
    have hmemt : R' ∈ (rcs.latestRoundForVal.map (fun p => p.2)).filter
        (fun v => decide (t ≤ countGE rcs.latestRoundForVal v)) :=
      List.mem_filter.mpr ⟨hmem'.1, by simp; omega⟩
    have hne : (rcs.latestRoundForVal.map (fun p => p.2)).filter
        (fun v => decide (t ≤ countGE rcs.latestRoundForVal v)) ≠ [] := by
      intro hnil
      rw [hnil] at hmemt
      exact List.not_mem_nil _ hmemt
    obtain ⟨R, hRmax⟩ := listMax_isSome_of_ne_nil _ hne
    exact ⟨R, hRmax, ((listMax_eq_some_iff _ R).mp hRmax).2 R' hmemt⟩
  · intro t hnd hlen
    unfold RoundChangeSet.MaxRound
    have hfil : (rcs.latestRoundForVal.map (fun p => p.2)).filter
        (fun v => decide (t ≤ countGE rcs.latestRoundForVal v)) = [] := by
      rw [List.filter_eq_nil_iff]
      intro v hv
      have := countGE_le_length rcs.latestRoundForVal v
      simp
      omega
    rw [hfil]
    rfl

/-- C9 witness: on the two-sender table, the characterization holds at
threshold 1 (the largest qualifying round is 5) and threshold 3 exceeds the
two distinct senders seen, giving `none`. -/
theorem roundChangeSet_MaxRound_spec_witness :
    ((1 : Nat) ≤ 1
      ∧ (rcsTwo.MaxRound 1 = some 5 ↔
          (1 ≤ countGE rcsTwo.latestRoundForVal 5
            ∧ ∀ R', 5 < R' → countGE rcsTwo.latestRoundForVal R' < 1)))
    ∧ rcsTwo.MaxRound 3 = none :=
  ⟨⟨by decide, (roundChangeSet_MaxRound_spec rcsTwo).1 1 5 (by decide)⟩,
    (roundChangeSet_MaxRound_spec rcsTwo).2.2 3 (by decide) (by decide)⟩

theorem selectRequestAux_cons (m : RCMessage) (rest : List RCMessage) (maxR : Int)
    (req : Option Request) (h : -1 ≤ maxR) :
    selectRequestAux (m :: rest) maxR req =
      if goodB m ∧ maxR < pcr m then
        selectRequestAux rest (pcr m) (some { proposal := m.pcProposal })
      else selectRequestAux rest maxR req := by
  cases hd : m.decodeOk
  · simp [selectRequestAux, goodB, hd]
  · cases hpc : m.pcRound with
    | none =>
      have hno : ¬ maxR < pcr m := by
        simp [pcr, hpc]
        omega
      simp [selectRequestAux, goodB, pcr, hd, hpc]
    | some r =>
      cases hh : m.hasPC
      · simp [selectRequestAux, goodB, hd, hpc, hh]
      · by_cases hr : maxR < r
        · have h1 : (-1 : Int) < r := by omega
          simp [selectRequestAux, goodB, pcr, hd, hpc, hh, hr, h1]
        · simp [selectRequestAux, goodB, pcr, hd, hpc, hh, hr]

theorem bestStep_none (m : RCMessage) :
    bestStep m none = if goodB m then some m else none := rfl

theorem bestStep_some (m b : RCMessage) :
    bestStep m (some b) = if goodB m ∧ pcr b ≤ pcr m then some m else some b := rfl

theorem bestMsg_eq_none_iff (l : List RCMessage) :
    bestMsg l = none ↔ ∀ m ∈ l, goodB m = false := by
  induction l with
  | nil => simp [bestMsg]
  | cons m rest ih =>
    cases hb : bestMsg rest with
    | none =>
      have hrest := ih.mp hb
      by_cases hg : goodB m = true
      · have hthis : bestMsg (m :: rest) = some m := by
          simp [bestMsg, hb, bestStep, hg]
        rw [hthis]
        constructor
        · intro h
          exact Option.noConfusion h
        · intro h
          exact absurd (hg.symm.trans (h m (List.mem_cons_self m rest))) (by decide)
      · rw [Bool.not_eq_true] at hg
        have hthis : bestMsg (m :: rest) = none := by
          simp [bestMsg, hb, bestStep, hg]
        rw [hthis]
        simp only [List.mem_cons]
        constructor
        · rintro - m' (rfl | hm')
          · exact hg
          · exact hrest m' hm'
        · intro _
          trivial
    | some b =>
      constructor
      · intro h
        have hthis : bestMsg (m :: rest) = bestStep m (some b) := by
          simp [bestMsg, hb]
        rw [hthis, bestStep_some] at h
        by_cases hc : (goodB m = true) ∧ pcr b ≤ pcr m
        · rw [if_pos hc] at h
          exact Option.noConfusion h
        · rw [if_neg hc] at h
          exact Option.noConfusion h
      · intro hall
        have hrest : ∀ m' ∈ rest, goodB m' = false :=
          fun m' hm' => hall m' (List.mem_cons_of_mem m hm')
        rw [ih.mpr hrest] at hb
        exact Option.noConfusion hb

theorem bestMsg_some_spec (l : List RCMessage) :
    ∀ b : RCMessage, bestMsg l = some b →
      b ∈ l ∧ goodB b = true ∧ ∀ m ∈ l, goodB m = true → pcr m ≤ pcr b := by
  induction l with
  | nil => intro b h; exact Option.noConfusion h
  | cons m rest ih =>
    intro b h
    simp only [bestMsg] at h
    cases hb : bestMsg rest with
    | none =>
      rw [hb, bestStep_none] at h
      by_cases hg : goodB m = true
      · rw [if_pos hg] at h
        injection h with h'
        subst h'
        refine ⟨List.mem_cons_self m rest, hg, ?_⟩
        rintro m' hm' hgm'
        rcases List.mem_cons.mp hm' with rfl | hm'
        · exact le_refl _
        · have hf := (bestMsg_eq_none_iff rest).mp hb m' hm'
          exact absurd (hf.symm.trans hgm') (by decide)
      · rw [if_neg hg] at h
        exact Option.noConfusion h
    | some b' =>
      rw [hb, bestStep_some] at h
      have hspec := ih b' hb
      by_cases hc : (goodB m = true) ∧ pcr b' ≤ pcr m
      · rw [if_pos hc] at h
        injection h with h'
        subst h'
        refine ⟨List.mem_cons_self m rest, hc.1, ?_⟩
        rintro m' hm' hgm'
        rcases List.mem_cons.mp hm' with rfl | hm'
        · exact le_refl _
        · exact le_trans (hspec.2.2 m' hm' hgm') hc.2
      · rw [if_neg hc] at h
        injection h with h'
        subst h'
        refine ⟨List.mem_cons_of_mem m hspec.1, hspec.2.1, ?_⟩
        rintro m' hm' hgm'
        rcases List.mem_cons.mp hm' with rfl | hm'
        · have hnb : ¬ pcr b' ≤ pcr m' := fun h2 => hc ⟨hgm', h2⟩
          omega
        · exact hspec.2.2 m' hm' hgm'

theorem selectRequestAux_eq_bestMsg (l : List RCMessage) :
    ∀ (maxR : Int) (req : Option Request), -1 ≤ maxR →
      selectRequestAux l maxR req =
        match bestMsg l with
        | none => req
        | some b =>
          if maxR < pcr b then some { proposal := b.pcProposal } else req := by
  induction l with
  | nil => intro maxR req h; simp [selectRequestAux, bestMsg]
  | cons m rest ih =>
    intro maxR req h
    rw [selectRequestAux_cons m rest maxR req h]
    by_cases hg : goodB m = true
    · have hpcr : (-1 : Int) < pcr m := by
        have hg2 := hg
        unfold goodB at hg2
        simp only [Bool.and_eq_true, decide_eq_true_eq] at hg2
        exact hg2.2
      by_cases hr : maxR < pcr m
      · rw [if_pos ⟨hg, hr⟩, ih (pcr m) _ (by omega)]
        cases hb : bestMsg rest with
        | none => simp [bestMsg, bestStep, hb, hg, hr]
        | some b =>
          by_cases hbm : pcr b ≤ pcr m
          · simp [bestMsg, bestStep, hb, hg, hbm, hr, not_lt.mpr hbm]
          · have hbm' : pcr m < pcr b := not_le.mp hbm
            have hmb : maxR < pcr b := by omega
            simp [bestMsg, bestStep, hb, hg, hbm, hbm', hmb]
      · rw [if_neg (fun hc => hr hc.2), ih maxR req h]
        cases hb : bestMsg rest with
        | none => simp [bestMsg, bestStep, hb, hg, hr]
        | some b =>
          by_cases hbm : pcr b ≤ pcr m
          · have hnb : ¬ maxR < pcr b := by omega
            simp [bestMsg, bestStep, hb, hg, hbm, hr, hnb]
          · simp [bestMsg, bestStep, hb, hg, hbm]
    · rw [if_neg (fun hc => hg hc.1), ih maxR req h]
      cases hb : bestMsg rest with
      | none => simp [bestMsg, bestStep, hb, hg]
      | some b => simp [bestMsg, bestStep, hb, hg]

theorem mem_collectFrom (r : Nat) :
    ∀ (l : List (Nat × List RCMessage)) (m : RCMessage),
      m ∈ collectFrom r l → ∃ p ∈ l, r ≤ p.1 ∧ m ∈ p.2 := by
  intro l
  induction l with
  | nil => intro m h; simp [collectFrom] at h
  | cons p rest ih =>
    intro m h
    unfold collectFrom at h
    by_cases hr : r ≤ p.1
    · rw [if_pos hr] at h
      rcases List.mem_append.mp h with h1 | h2
      · exact ⟨p, List.mem_cons_self p rest, hr, h1⟩
      · obtain ⟨q, hq, hrq, hmq⟩ := ih m h2
        exact ⟨q, List.mem_cons_of_mem p hq, hrq, hmq⟩
    · rw [if_neg hr] at h
      obtain ⟨q, hq, hrq, hmq⟩ := ih m h
      exact ⟨q, List.mem_cons_of_mem p hq, hrq, hmq⟩

/-- C1: on a round change to a round beyond the current one in which this
node is the new proposer and a request is available, the PRE-PREPARE
broadcast by `startNewRound` carries the round change certificate built for
that round (minQuorumSize messages, all stored at rounds at least the
target) together with the proposal of the highest-round prepared certificate
embedded in those messages, falling back to the pending request when no
message carries one. -/
theorem startNewRound_preprepare_spec (c : CoreState) (b : Backend) (round : Int)
    (cur : RoundState) (req : Request) (cert : List RCMessage)
    (hcur : c.current = some cur)
    (hseq : b.lastProposalNumber = cur.sequence - 1)
    (hround : cur.round < round)
    (hok : getPreprepareWithRoundChangeCertificate c round = Except.ok (some req, cert))
    (hprop : (c.valSet.calcProposer b.lastProposer round.toNat).isProposer c.address = true) :
    (startNewRound c b round).2 =
      [Action.sendPreprepare req cert,
       Action.resetTimer { sequence := cur.sequence, round := round }]
    ∧ ((∃ bm ∈ cert, goodB bm = true ∧ req = { proposal := bm.pcProposal }
          ∧ ∀ m ∈ cert, goodB m = true → pcr m ≤ pcr bm)
        ∨ ((∀ m ∈ cert, goodB m = false) ∧ cur.pendingRequest = some req))
    ∧ cert.length = minQuorumSize c.valSet.validators.length
    ∧ ∀ m ∈ cert, ∃ p ∈ c.roundChangeSet.msgsForRound, round.toNat ≤ p.1 ∧ m ∈ p.2 := by
  have h1 : ¬ cur.sequence ≤ b.lastProposalNumber := by omega
  have h2 : ¬ round = cur.round := by omega
  have h3 : ¬ round < cur.round := by omega
  rcases hgc : c.roundChangeSet.getCertificate round.toNat
      (minQuorumSize c.valSet.validators.length) with e | cert2
  · have herr : getPreprepareWithRoundChangeCertificate c round = Except.error e := by
      unfold getPreprepareWithRoundChangeCertificate
      rw [hgc]
    rw [herr] at hok
    exact Except.noConfusion hok
  · have hunf : getPreprepareWithRoundChangeCertificate c round
        = Except.ok (selectRequestAux cert2 (-1) cur.pendingRequest, cert2) := by
      unfold getPreprepareWithRoundChangeCertificate
      rw [hgc, hcur]
    rw [hunf] at hok
    injection hok with hok'
    have hcert : cert2 = cert := congrArg Prod.snd hok'
    subst hcert
    have hsel : selectRequestAux cert2 (-1) cur.pendingRequest = some req :=
      congrArg Prod.fst hok'
    refine ⟨?_, ?_, ?_, ?_⟩
    · simp only [startNewRound, hcur, if_neg h1, if_pos hseq, if_neg h2, if_neg h3]
      rw [show getPreprepareWithRoundChangeCertificate c round
          = Except.ok ((some req : Option Request), cert2) by rw [hunf, hsel]]
      simp [startNewRoundTail, updateRoundState, hcur, hprop]
    · rw [selectRequestAux_eq_bestMsg cert2 (-1) cur.pendingRequest (le_refl _)] at hsel
      cases hbm : bestMsg cert2 with
      | none =>
        rw [hbm] at hsel
        have hsel2 : cur.pendingRequest = some req := hsel
        exact Or.inr ⟨(bestMsg_eq_none_iff cert2).mp hbm, hsel2⟩
      | some bm =>
        have hspec := bestMsg_some_spec cert2 bm hbm
        have hpcr : (-1 : Int) < pcr bm := by
          have hg2 := hspec.2.1
          unfold goodB at hg2
          simp only [Bool.and_eq_true, decide_eq_true_eq] at hg2
          exact hg2.2
        rw [hbm] at hsel
        have hsel2 : (if (-1 : Int) < pcr bm then
            (some { proposal := bm.pcProposal } : Option Request)
          else cur.pendingRequest) = some req := hsel
        rw [if_pos hpcr] at hsel2
        injection hsel2 with hsel'
        exact Or.inl ⟨bm, hspec.1, hspec.2.1, hsel'.symm, hspec.2.2⟩
    · unfold RoundChangeSet.getCertificate at hgc
      by_cases hq : minQuorumSize c.valSet.validators.length
          ≤ (collectFrom round.toNat c.roundChangeSet.msgsForRound).length
      · rw [if_pos hq] at hgc
        injection hgc with hgc'
        rw [← hgc', List.length_take]
        omega
      · rw [if_neg hq] at hgc
        exact Except.noConfusion hgc
    · intro m hm
      unfold RoundChangeSet.getCertificate at hgc
      by_cases hq : minQuorumSize c.valSet.validators.length
          ≤ (collectFrom round.toNat c.roundChangeSet.msgsForRound).length
      · rw [if_pos hq] at hgc
        injection hgc with hgc'
        rw [← hgc'] at hm
        exact mem_collectFrom round.toNat c.roundChangeSet.msgsForRound m
          (List.take_subset _ _ hm)
      · rw [if_neg hq] at hgc
        exact Except.noConfusion hgc

/-- C1 witness: validator 5 proposes round 1 at sequence 2; the certificate
is the single stored ROUND-CHANGE message and its embedded certificate
proposal replaces the pending request in the PRE-PREPARE. -/
theorem startNewRound_preprepare_spec_witness :
    (startNewRound coreRC backendRC 1).2 =
      [Action.sendPreprepare { proposal := makeBlock 3 } [rcMsgB],
       Action.resetTimer { sequence := 2, round := 1 }] :=
  (startNewRound_preprepare_spec coreRC backendRC 1
    { sequence := 2, round := 0, desiredRound := 0
      pendingRequest := some { proposal := makeBlock 2 }
      preparedCertificate := EmptyPreparedCertificate }
    { proposal := makeBlock 3 } [rcMsgB] rfl (by decide) (by decide) rfl
    (by decide)).1

end Ist
